import Mathlib

/-!
Shallow embedding of the `Envr<K, V>` hierarchical environment from
`src/lib.rs` of the record-envr crate.

A Rust `Envr<K, V>` is a pair of a `HashMap<K, V>` (the local bindings)
and an `Option<Box<Envr<K, V>>>` (the optional owned parent).  We model
the hash map as an association list with the usual replace-or-append
insertion; iteration order of a `HashMap` is unspecified in Rust, and
every operation of the crate whose result we reason about is insensitive
to per-level iteration order once each level's keys are unique (the
`wf` predicate below, maintained by every constructor of the crate).
-/

namespace RecordEnvr

variable {K V : Type}

/-- `HashMap::get` on the association-list model: value of the first
entry whose key matches. -/
def lookupA [DecidableEq K] : List (K × V) → K → Option V
  | [], _ => none
  | (k0, v) :: rest, k => if k0 = k then some v else lookupA rest k

/-- `HashMap::contains_key` on the association-list model. -/
def containsKeyA [DecidableEq K] (l : List (K × V)) (k : K) : Bool :=
  (lookupA l k).isSome

/-- `HashMap::insert` on the association-list model: overwrite the
entry for `k` in place when present, append otherwise. -/
def insertA [DecidableEq K] (l : List (K × V)) (k : K) (v : V) : List (K × V) :=
  if containsKeyA l k
  then l.map (fun p => if p.1 = k then (k, v) else p)
  else l ++ [(k, v)]

/-- Writing through the mutable reference `HashMap::get_mut` yields:
replace the value stored for `k`, keys and positions untouched. -/
def replaceA [DecidableEq K] (l : List (K × V)) (k : K) (v : V) : List (K × V) :=
  l.map (fun p => if p.1 = k then (k, v) else p)

/-- The keys of a level, in storage order. -/
def keysA (l : List (K × V)) : List K := l.map Prod.fst

/-- Each key occurs at most once in the level — the hash-map invariant. -/
def nodupKeysA [DecidableEq K] : List (K × V) → Bool
  | [] => true
  | (k, _) :: rest => !containsKeyA rest k && nodupKeysA rest

/-- Boolean list membership (models `HashSet::contains`). -/
def elemA [DecidableEq K] : List K → K → Bool
  | [], _ => false
  | x :: rest, k => if x = k then true else elemA rest k

/-- `struct Envr<K, V>(HashMap<K, V>, Option<Box<Self>>)`. -/
inductive Envr (K V : Type) : Type where
  | mk (locals : List (K × V)) (parent : Option (Envr K V))

/-- `get_locals`: read-only view of the local mapping (field 0). -/
def Envr.get_locals : Envr K V → List (K × V)
  | .mk l _ => l

/-- `get_parent`: read-only view of the optional parent (field 1). -/
def Envr.get_parent : Envr K V → Option (Envr K V)
  | .mk _ p => p

/-- `has_parent`: `self.1.is_some()`. -/
def Envr.has_parent (e : Envr K V) : Bool :=
  e.get_parent.isSome

/-- `Envr::new`: empty root environment. -/
def Envr.new : Envr K V := .mk [] none

/-- `Envr::new_from`: empty environment over the given optional parent. -/
def Envr.new_from (p : Option (Envr K V)) : Envr K V := .mk [] p

/-- `extend`: consume `self`, return an empty child owning it as parent. -/
def Envr.extend (e : Envr K V) : Envr K V := .mk [] (some e)

/-- `size`: local entry count plus, recursively, the parent's size. -/
def Envr.size : Envr K V → Nat
  | .mk l none => l.length
  | .mk l (some p) => l.length + p.size

/-- `contains_local`: key present in the local mapping only. -/
def Envr.contains_local [DecidableEq K] (e : Envr K V) (k : K) : Bool :=
  containsKeyA e.get_locals k

/-- `contains`: walk the chain from the local level outward until the
key is found or the chain is exhausted. -/
def Envr.contains [DecidableEq K] : Envr K V → K → Bool
  | .mk l none, k => containsKeyA l k
  | .mk l (some p), k => containsKeyA l k || p.contains k

/-- `get`: local lookup first, then recurse into the parent. -/
def Envr.get [DecidableEq K] : Envr K V → K → Option V
  | .mk l none, k => lookupA l k
  | .mk l (some p), k =>
    match lookupA l k with
    | some v => some v
    | none => p.get k

/-- `define`: reject (returning the pair, chain untouched) when the key
is bound anywhere in the chain; otherwise insert locally and return
`None`.  The mutated receiver is returned as the first component. -/
def Envr.define [DecidableEq K] (e : Envr K V) (k : K) (v : V) :
    Envr K V × Option (K × V) :=
  if e.contains k then (e, some (k, v))
  else (.mk (insertA e.get_locals k v) e.get_parent, none)

/-- `set`: unconditional local insert; returns the previous local value
(the return of `HashMap::insert`) next to the mutated receiver. -/
def Envr.set [DecidableEq K] (e : Envr K V) (k : K) (v : V) :
    Envr K V × Option V :=
  (.mk (insertA e.get_locals k v) e.get_parent, lookupA e.get_locals k)

/-- `get_mut` followed by the single write `*v0 = v` of `update`: the
first level (local outward) binding `k` has its value replaced; `none`
when no level binds `k`.  `get_mut` itself only hands out the mutable
reference; this function performs the one mutation `update` does
through it. -/
def Envr.get_mut_write [DecidableEq K] : Envr K V → K → V → Option (Envr K V)
  | .mk l none, k, v =>
    if containsKeyA l k then some (.mk (replaceA l k v) none) else none
  | .mk l (some p), k, v =>
    if containsKeyA l k then some (.mk (replaceA l k v) (some p))
    else (p.get_mut_write k v).map (fun p2 => .mk l (some p2))

/-- `update`: overwrite through `get_mut` when the key is bound
anywhere; `Either::Left(self.get(k).unwrap())` is modelled as
`Sum.inl (e2.get k)` (the option the source unwraps), the
`Either::Right(v)` failure as `Sum.inr v`. -/
def Envr.update [DecidableEq K] (e : Envr K V) (k : K) (v : V) :
    Envr K V × (Option V ⊕ V) :=
  match e.get_mut_write k v with
  | some e2 => (e2, Sum.inl (e2.get k))
  | none => (e, Sum.inr v)

/-- The `for (k, v) in tmp.0 { env.0.insert(k, v) }` loop of `flatten`:
insert every entry of a level into the accumulator, later entries
overwriting earlier ones. -/
def insertAllA [DecidableEq K] (acc : List (K × V)) : List (K × V) → List (K × V)
  | [] => acc
  | (k, v) :: rest => insertAllA (insertA acc k v) rest

/-- The `flatten` loop: levels visited from the innermost (`self`)
outward, each level's entries inserted into the single result map. -/
def flattenAux [DecidableEq K] (acc : List (K × V)) : Envr K V → List (K × V)
  | .mk l none => insertAllA acc l
  | .mk l (some p) => flattenAux (insertAllA acc l) p

/-- `flatten`: merge the whole chain into one parentless environment. -/
def Envr.flatten [DecidableEq K] (e : Envr K V) : Envr K V :=
  .mk (flattenAux [] e) none

/-- `HashSet::insert` on a list-of-keys model of the set. -/
def insertKeySet [DecidableEq K] (s : List K) (k : K) : List K :=
  if elemA s k then s else s ++ [k]

/-- The `keyset` loop: walk the chain from the local level outward,
inserting every level's keys into one set. -/
def keysetAux [DecidableEq K] (acc : List K) : Envr K V → List K
  | .mk l none => l.foldl (fun a q => insertKeySet a q.1) acc
  | .mk l (some p) => keysetAux (l.foldl (fun a q => insertKeySet a q.1) acc) p

/-- `keyset`: the deduplicated keys visible anywhere in the chain. -/
def Envr.keyset [DecidableEq K] (e : Envr K V) : List K := keysetAux [] e

/-- `difference`: keys of `self`'s keyset absent from `other`'s keyset,
each `set` into a fresh parentless environment with `self.get`'s value. -/
def Envr.difference [DecidableEq K] (e o : Envr K V) : Envr K V :=
  .mk (((e.keyset).filter (fun k => !(elemA o.keyset k))).foldl
        (fun acc k =>
          match e.get k with
          | some v => insertA acc k v
          | none => acc) []) none

/-- `map.entry(k).or_insert_with(Vec::new).push(v)` of `stack`. -/
def pushEntry [DecidableEq K] (a : List (K × List V)) (k : K) (v : V) :
    List (K × List V) :=
  if containsKeyA a k
  then a.map (fun p => if p.1 = k then (p.1, p.2 ++ [v]) else p)
  else a ++ [(k, [v])]

/-- The `stack` loop: levels visited from the local level outward, each
entry pushed onto its key's vector. -/
def stackAux [DecidableEq K] (acc : List (K × List V)) : Envr K V → List (K × List V)
  | .mk l none => l.foldl (fun a q => pushEntry a q.1 q.2) acc
  | .mk l (some p) => stackAux (l.foldl (fun a q => pushEntry a q.1 q.2) acc) p

/-- `stack`: map each key to all of its values across the chain, the
innermost level's value first. -/
def Envr.stack [DecidableEq K] (e : Envr K V) : List (K × List V) :=
  stackAux [] e

/-- Every level's keys are unique — true of any environment actually
built through the crate's API, since each level is a `HashMap`. -/
def Envr.wf [DecidableEq K] : Envr K V → Bool
  | .mk l none => nodupKeysA l
  | .mk l (some p) => nodupKeysA l && p.wf

/-- Spec-side view: the chain as the list of its levels, innermost
first. -/
def Envr.levels : Envr K V → List (List (K × V))
  | .mk l none => [l]
  | .mk l (some p) => l :: p.levels

/-- Spec-side view: first level in the list that binds the key wins
(the innermost visible binding when the list is `levels`). -/
def chainLookup [DecidableEq K] : List (List (K × V)) → K → Option V
  | [], _ => none
  | l :: rest, k =>
    match lookupA l k with
    | some v => some v
    | none => chainLookup rest k

/-- Spec-side view: the outermost (oldest) level's binding for the key,
`none` when no level binds it. -/
def Envr.getOutermost [DecidableEq K] : Envr K V → K → Option V
  | .mk l none, k => lookupA l k
  | .mk l (some p), k =>
    match p.getOutermost k with
    | some v => some v
    | none => lookupA l k

/-- Spec-side view: all values bound to the key across the chain, the
innermost level's value first. -/
def Envr.chainValues [DecidableEq K] : Envr K V → K → List V
  | .mk l none, k =>
    match lookupA l k with
    | some v => [v]
    | none => []
  | .mk l (some p), k =>
    (match lookupA l k with
     | some v => [v]
     | none => []) ++ p.chainValues k

example : Envr.get (.mk [(1, 10)] (some (.mk [(1, 20), (2, 30)] none))) 2
    = some 30 := by decide

example : (Envr.flatten (.mk [(1, 10)] (some (.mk [(1, 20)] none)))).get 1
    = some 20 := by decide

/-! ### Association-list lemmas -/

theorem lookupA_append [DecidableEq K] (l1 l2 : List (K × V)) (k : K) :
    lookupA (l1 ++ l2) k =
      match lookupA l1 k with
      | some v => some v
      | none => lookupA l2 k := by
  induction l1 with
  | nil => simp [lookupA]
  | cons q rest ih =>
    obtain ⟨k0, v0⟩ := q
    by_cases h : k0 = k <;> simp [lookupA, h, ih]

theorem lookupA_cons [DecidableEq K] (k0 : K) (v0 : V) (rest : List (K × V))
    (k : K) :
    lookupA ((k0, v0) :: rest) k = if k0 = k then some v0 else lookupA rest k :=
  rfl

theorem containsKeyA_cons [DecidableEq K] (k0 : K) (v0 : V)
    (rest : List (K × V)) (k : K) :
    containsKeyA ((k0, v0) :: rest) k =
      (decide (k0 = k) || containsKeyA rest k) := by
  by_cases h : k0 = k <;> simp [containsKeyA, lookupA, h]

theorem replaceA_cons [DecidableEq K] (k0 : K) (v0 : V) (rest : List (K × V))
    (k : K) (v : V) :
    replaceA ((k0, v0) :: rest) k v =
      (if k0 = k then (k, v) else (k0, v0)) :: replaceA rest k v := by
  by_cases h : k0 = k <;> simp [replaceA, h]

theorem lookupA_replaceA [DecidableEq K] (l : List (K × V)) (k : K) (v : V)
    (k' : K) :
    lookupA (replaceA l k v) k' =
      if k' = k then (if containsKeyA l k then some v else none)
      else lookupA l k' := by
  induction l with
  | nil => simp [replaceA, lookupA, containsKeyA]
  | cons q rest ih =>
    obtain ⟨k0, v0⟩ := q
    rw [replaceA_cons]
    by_cases h0 : k0 = k <;> by_cases h1 : k' = k
    · simp_all [lookupA_cons, containsKeyA_cons]
    · have h2 : ¬k = k' := fun hh => h1 hh.symm
      simp_all [lookupA_cons, containsKeyA_cons, h2]
    · simp_all [lookupA_cons, containsKeyA_cons]
    · simp_all [lookupA_cons, containsKeyA_cons]

theorem lookupA_insertA [DecidableEq K] (l : List (K × V)) (k : K) (v : V)
    (k' : K) :
    lookupA (insertA l k v) k' = if k' = k then some v else lookupA l k' := by
  unfold insertA
  by_cases hc : containsKeyA l k
  · have : (l.map fun p => if p.1 = k then (k, v) else p) = replaceA l k v := rfl
    rw [if_pos hc, this, lookupA_replaceA, if_pos hc]
  · rw [if_neg hc, lookupA_append]
    by_cases h : k' = k
    · subst h
      have hnone : lookupA l k' = none := by
        by_contra hne
        exact hc (by simp [containsKeyA, Option.isSome_iff_ne_none, hne])
      simp [hnone, lookupA]
    · cases hl : lookupA l k' <;> simp [lookupA, hl, h, Ne.symm h]

theorem keysA_replaceA [DecidableEq K] (l : List (K × V)) (k : K) (v : V) :
    keysA (replaceA l k v) = keysA l := by
  induction l with
  | nil => rfl
  | cons q rest ih =>
    obtain ⟨k0, v0⟩ := q
    by_cases h : k0 = k <;> simp [keysA, replaceA, h] <;>
      simpa [keysA, replaceA] using ih

theorem length_replaceA [DecidableEq K] (l : List (K × V)) (k : K) (v : V) :
    (replaceA l k v).length = l.length := by
  simp [replaceA]

theorem elemA_append [DecidableEq K] (s1 s2 : List K) (k : K) :
    elemA (s1 ++ s2) k = (elemA s1 k || elemA s2 k) := by
  induction s1 with
  | nil => simp [elemA]
  | cons x rest ih =>
    by_cases h : x = k <;> simp [elemA, h, ih]

theorem lookupA_eq_none_of_not_contains [DecidableEq K] (l : List (K × V))
    (k : K) (h : containsKeyA l k = false) : lookupA l k = none := by
  unfold containsKeyA at h
  cases hl : lookupA l k
  · rfl
  · rw [hl] at h
    simp at h

theorem nodupKeysA_cons [DecidableEq K] (k0 : K) (v0 : V)
    (rest : List (K × V)) :
    nodupKeysA ((k0, v0) :: rest) = (!containsKeyA rest k0 && nodupKeysA rest) :=
  rfl

/-! ### Chain lemmas -/

theorem wf_mk_none [DecidableEq K] (l : List (K × V)) :
    (Envr.mk l (none : Option (Envr K V))).wf = nodupKeysA l := rfl

theorem wf_mk_some [DecidableEq K] (l : List (K × V)) (p : Envr K V) :
    (Envr.mk l (some p)).wf = (nodupKeysA l && p.wf) := rfl

theorem get_eq_chainLookup [DecidableEq K] : ∀ (e : Envr K V) (k : K),
    e.get k = chainLookup e.levels k
  | .mk l none, k => by
    cases hl : lookupA l k <;> simp [Envr.get, Envr.levels, chainLookup, hl]
  | .mk l (some p), k => by
    cases hl : lookupA l k <;>
      simp [Envr.get, Envr.levels, chainLookup, hl, get_eq_chainLookup p k]

theorem contains_eq_any [DecidableEq K] : ∀ (e : Envr K V) (k : K),
    e.contains k = e.levels.any (fun l => containsKeyA l k)
  | .mk l none, k => by simp [Envr.contains, Envr.levels]
  | .mk l (some p), k => by
    simp [Envr.contains, Envr.levels, contains_eq_any p k]

theorem isSome_get_eq_contains [DecidableEq K] : ∀ (e : Envr K V) (k : K),
    (e.get k).isSome = e.contains k
  | .mk l none, k => by simp [Envr.get, Envr.contains, containsKeyA]
  | .mk l (some p), k => by
    cases hl : lookupA l k <;>
      simp [Envr.get, Envr.contains, containsKeyA, hl,
        isSome_get_eq_contains p k]

theorem isSome_getOutermost_eq_contains [DecidableEq K] : ∀ (e : Envr K V)
    (k : K), (e.getOutermost k).isSome = e.contains k
  | .mk l none, k => by
    simp [Envr.getOutermost, Envr.contains, containsKeyA]
  | .mk l (some p), k => by
    have ih := isSome_getOutermost_eq_contains p k
    cases hp : p.getOutermost k <;> rw [hp] at ih <;> simp at ih <;>
      simp [Envr.getOutermost, Envr.contains, hp, ih, containsKeyA]

theorem size_eq_sum_levels : ∀ e : Envr K V,
    e.size = (e.levels.map List.length).sum
  | .mk l none => by simp [Envr.size, Envr.levels]
  | .mk l (some p) => by
    simp [Envr.size, Envr.levels, size_eq_sum_levels p]

/-! ### Lemmas on the flatten loop -/

theorem lookupA_insertAllA [DecidableEq K] :
    ∀ (l acc : List (K × V)) (k : K), nodupKeysA l = true →
    lookupA (insertAllA acc l) k =
      match lookupA l k with
      | some v => some v
      | none => lookupA acc k
  | [], acc, k, _ => by simp [insertAllA, lookupA]
  | (k0, v0) :: rest, acc, k, h => by
    rw [nodupKeysA_cons] at h
    simp only [Bool.and_eq_true, Bool.not_eq_true'] at h
    rw [insertAllA, lookupA_insertAllA rest (insertA acc k0 v0) k h.2]
    by_cases hk : k0 = k
    · subst hk
      have hn : lookupA rest k0 = none :=
        lookupA_eq_none_of_not_contains rest k0 h.1
      simp [lookupA_cons, hn, lookupA_insertA]
    · have hk2 : ¬k = k0 := fun hh => hk hh.symm
      cases hr : lookupA rest k <;>
        simp [lookupA_cons, hk, hk2, hr, lookupA_insertA]

theorem lookupA_flattenAux [DecidableEq K] :
    ∀ (e : Envr K V) (acc : List (K × V)) (k : K), e.wf = true →
    lookupA (flattenAux acc e) k =
      match e.getOutermost k with
      | some v => some v
      | none => lookupA acc k
  | .mk l none, acc, k, h => by
    rw [wf_mk_none] at h
    rw [flattenAux, lookupA_insertAllA l acc k h]
    simp [Envr.getOutermost]
  | .mk l (some p), acc, k, h => by
    rw [wf_mk_some] at h
    simp only [Bool.and_eq_true] at h
    rw [flattenAux, lookupA_flattenAux p _ k h.2]
    cases hg : p.getOutermost k
    · rw [lookupA_insertAllA l acc k h.1]
      simp [Envr.getOutermost, hg]
    · simp [Envr.getOutermost, hg]

/-! ### Lemmas on the update path -/

theorem isSome_get_mut_write [DecidableEq K] : ∀ (e : Envr K V) (k : K)
    (v : V), (e.get_mut_write k v).isSome = e.contains k
  | .mk l none, k, v => by
    by_cases h : containsKeyA l k = true <;>
      simp [Envr.get_mut_write, Envr.contains, h]
  | .mk l (some p), k, v => by
    by_cases h : containsKeyA l k = true
    · simp [Envr.get_mut_write, Envr.contains, h]
    · cases hp : p.get_mut_write k v <;>
        have ih := isSome_get_mut_write p k v <;> rw [hp] at ih <;>
        simp [Envr.get_mut_write, Envr.contains, h, hp, ← ih]

theorem gmw_get_self [DecidableEq K] : ∀ (e e2 : Envr K V) (k : K) (v : V),
    e.get_mut_write k v = some e2 → e2.get k = some v
  | .mk l none, e2, k, v, h => by
    by_cases hc : containsKeyA l k = true
    · simp only [Envr.get_mut_write, if_pos hc] at h
      cases h
      simp [Envr.get, lookupA_replaceA, hc]
    · simp [Envr.get_mut_write, hc] at h
  | .mk l (some p), e2, k, v, h => by
    by_cases hc : containsKeyA l k = true
    · simp only [Envr.get_mut_write, if_pos hc] at h
      cases h
      simp [Envr.get, lookupA_replaceA, hc]
    · simp only [Envr.get_mut_write, hc, if_false, Bool.false_eq_true] at h
      rcases Option.map_eq_some'.mp h with ⟨p2, hp2, rfl⟩
      have hn : lookupA l k = none :=
        lookupA_eq_none_of_not_contains l k (by simpa using hc)
      simp [Envr.get, hn, gmw_get_self p p2 k v hp2]

theorem gmw_get_ne [DecidableEq K] : ∀ (e e2 : Envr K V) (k : K) (v : V)
    (k' : K), e.get_mut_write k v = some e2 → k' ≠ k →
    e2.get k' = e.get k'
  | .mk l none, e2, k, v, k', h, hne => by
    by_cases hc : containsKeyA l k = true
    · simp only [Envr.get_mut_write, if_pos hc] at h
      cases h
      simp [Envr.get, lookupA_replaceA, hne]
    · simp [Envr.get_mut_write, hc] at h
  | .mk l (some p), e2, k, v, k', h, hne => by
    by_cases hc : containsKeyA l k = true
    · simp only [Envr.get_mut_write, if_pos hc] at h
      cases h
      cases hl : lookupA l k' <;>
        simp [Envr.get, lookupA_replaceA, hne, hl]
    · simp only [Envr.get_mut_write, hc, if_false, Bool.false_eq_true] at h
      rcases Option.map_eq_some'.mp h with ⟨p2, hp2, rfl⟩
      cases hl : lookupA l k' <;>
        simp [Envr.get, hl, gmw_get_ne p p2 k v k' hp2 hne]

theorem gmw_levels_keys [DecidableEq K] : ∀ (e e2 : Envr K V) (k : K) (v : V),
    e.get_mut_write k v = some e2 →
    e2.levels.map keysA = e.levels.map keysA
  | .mk l none, e2, k, v, h => by
    by_cases hc : containsKeyA l k = true
    · simp only [Envr.get_mut_write, if_pos hc] at h
      cases h
      simp [Envr.levels, keysA_replaceA]
    · simp [Envr.get_mut_write, hc] at h
  | .mk l (some p), e2, k, v, h => by
    by_cases hc : containsKeyA l k = true
    · simp only [Envr.get_mut_write, if_pos hc] at h
      cases h
      simp [Envr.levels, keysA_replaceA]
    · simp only [Envr.get_mut_write, hc, if_false, Bool.false_eq_true] at h
      rcases Option.map_eq_some'.mp h with ⟨p2, hp2, rfl⟩
      simp [Envr.levels, gmw_levels_keys p p2 k v hp2]

theorem chainValues_eq_nil_of_not_contains [DecidableEq K] :
    ∀ (e : Envr K V) (k : K), e.contains k = false → e.chainValues k = []
  | .mk l none, k, h => by
    simp only [Envr.contains] at h
    simp [Envr.chainValues, lookupA_eq_none_of_not_contains l k h]
  | .mk l (some p), k, h => by
    simp only [Envr.contains, Bool.or_eq_false_iff] at h
    simp [Envr.chainValues, lookupA_eq_none_of_not_contains l k h.1,
      chainValues_eq_nil_of_not_contains p k h.2]

theorem gmw_chainValues [DecidableEq K] : ∀ (e e2 : Envr K V) (k : K)
    (v : V), e.get_mut_write k v = some e2 →
    e2.chainValues k = v :: (e.chainValues k).tail
  | .mk l none, e2, k, v, h => by
    by_cases hc : containsKeyA l k = true
    · simp only [Envr.get_mut_write, if_pos hc] at h
      cases h
      obtain ⟨w, hw⟩ := Option.isSome_iff_exists.mp hc
      simp [Envr.chainValues, lookupA_replaceA, hc, hw]
    · simp [Envr.get_mut_write, hc] at h
  | .mk l (some p), e2, k, v, h => by
    by_cases hc : containsKeyA l k = true
    · simp only [Envr.get_mut_write, if_pos hc] at h
      cases h
      obtain ⟨w, hw⟩ := Option.isSome_iff_exists.mp hc
      simp [Envr.chainValues, lookupA_replaceA, hc, hw]
    · simp only [Envr.get_mut_write, hc, if_false, Bool.false_eq_true] at h
      rcases Option.map_eq_some'.mp h with ⟨p2, hp2, rfl⟩
      have hn : lookupA l k = none :=
        lookupA_eq_none_of_not_contains l k (by simpa using hc)
      simp [Envr.chainValues, hn, gmw_chainValues p p2 k v hp2]

theorem chainValues_ne_nil_of_contains [DecidableEq K] :
    ∀ (e : Envr K V) (k : K), e.contains k = true → e.chainValues k ≠ []
  | .mk l none, k, h => by
    simp only [Envr.contains, containsKeyA] at h
    obtain ⟨w, hw⟩ := Option.isSome_iff_exists.mp h
    simp [Envr.chainValues, hw]
  | .mk l (some p), k, h => by
    simp only [Envr.contains, Bool.or_eq_true] at h
    rcases h with h | h
    · obtain ⟨w, hw⟩ := Option.isSome_iff_exists.mp h
      simp [Envr.chainValues, hw]
    · cases hl : lookupA l k
      · simp only [Envr.chainValues, hl, List.nil_append]
        exact chainValues_ne_nil_of_contains p k h
      · simp [Envr.chainValues, hl]

/-! ### Lemmas on the keyset and difference loops -/

theorem elemA_insertKeySet [DecidableEq K] (s : List K) (k0 k : K) :
    elemA (insertKeySet s k0) k = (elemA s k || decide (k0 = k)) := by
  unfold insertKeySet
  by_cases h : elemA s k0 = true
  · rw [if_pos h]
    by_cases hk : k0 = k
    · subst hk
      simp [h]
    · simp [hk]
  · rw [if_neg h, elemA_append]
    by_cases hk : k0 = k <;> simp [elemA, hk]

theorem elemA_foldl_insertKeySet [DecidableEq K] :
    ∀ (l : List (K × V)) (acc : List K) (k : K),
    elemA (l.foldl (fun a q => insertKeySet a q.1) acc) k =
      (elemA acc k || containsKeyA l k)
  | [], acc, k => by simp [containsKeyA, lookupA]
  | (k0, v0) :: rest, acc, k => by
    rw [List.foldl_cons, elemA_foldl_insertKeySet rest _ k,
      containsKeyA_cons]
    show (elemA (insertKeySet acc k0) k || containsKeyA rest k) = _
    rw [elemA_insertKeySet, Bool.or_assoc]

theorem elemA_keysetAux [DecidableEq K] : ∀ (e : Envr K V) (acc : List K)
    (k : K), elemA (keysetAux acc e) k = (elemA acc k || e.contains k)
  | .mk l none, acc, k => by
    simp [keysetAux, elemA_foldl_insertKeySet, Envr.contains]
  | .mk l (some p), acc, k => by
    simp only [keysetAux, elemA_keysetAux p, elemA_foldl_insertKeySet,
      Envr.contains]
    cases elemA acc k <;> cases containsKeyA l k <;> cases p.contains k <;>
      simp

theorem elemA_keyset [DecidableEq K] (e : Envr K V) (k : K) :
    elemA e.keyset k = e.contains k := by
  simp [Envr.keyset, elemA_keysetAux, elemA]

theorem elemA_filter [DecidableEq K] (f : K → Bool) : ∀ (s : List K) (k : K),
    elemA (s.filter f) k = (elemA s k && f k)
  | [], k => by simp [elemA]
  | x :: rest, k => by
    by_cases hx : x = k
    · subst hx
      by_cases hf : f x = true <;>
        simp [List.filter_cons, elemA, hf, elemA_filter f rest]
    · by_cases hf : f x = true <;>
        simp [List.filter_cons, elemA, hx, hf, elemA_filter f rest]

theorem lookupA_diff_foldl [DecidableEq K] (g : K → Option V) :
    ∀ (keys : List K) (acc : List (K × V)) (k : K),
    lookupA (keys.foldl (fun a k0 =>
      match g k0 with
      | some v => insertA a k0 v
      | none => a) acc) k =
      if elemA keys k && (g k).isSome then g k else lookupA acc k
  | [], acc, k => by simp [elemA]
  | k0 :: rest, acc, k => by
    rw [List.foldl_cons, lookupA_diff_foldl g rest _ k]
    by_cases hk : k0 = k
    · subst hk
      cases hg : g k0
      · by_cases hr : elemA rest k0 = true <;> simp [elemA, hg, hr]
      · by_cases hr : elemA rest k0 = true <;>
          simp [elemA, hg, hr, lookupA_insertA]
    · have hk2 : ¬k = k0 := fun hh => hk hh.symm
      cases hg : g k0 <;> simp [elemA, hk, hk2, hg, lookupA_insertA]

/-! ### Lemmas on the stack loop -/

theorem lookupA_pushAll [DecidableEq K] (a : List (K × List V)) (k0 : K)
    (v : V) (k : K) :
    lookupA (a.map fun p => if p.1 = k0 then (p.1, p.2 ++ [v]) else p) k =
      (if k = k0 then (lookupA a k0).map (fun cur => cur ++ [v])
       else lookupA a k) := by
  induction a with
  | nil => by_cases hk : k = k0 <;> simp [lookupA, hk]
  | cons q rest ih =>
    obtain ⟨k1, v1⟩ := q
    by_cases h1 : k1 = k0 <;> by_cases h2 : k = k0
    · simp_all [lookupA_cons]
    · have h3 : ¬k0 = k := fun hh => h2 hh.symm
      simp_all [lookupA_cons]
    · simp_all [lookupA_cons]
    · simp_all [lookupA_cons]

theorem lookupA_pushEntry [DecidableEq K] (a : List (K × List V)) (k0 : K)
    (v : V) (k : K) :
    lookupA (pushEntry a k0 v) k =
      (if k = k0 then some (((lookupA a k0).getD []) ++ [v])
       else lookupA a k) := by
  unfold pushEntry
  by_cases hc : containsKeyA a k0 = true
  · rw [if_pos hc, lookupA_pushAll]
    by_cases hk : k = k0
    · subst hk
      obtain ⟨cur, hcur⟩ := Option.isSome_iff_exists.mp hc
      simp [hcur]
    · simp [hk]
  · rw [if_neg hc, lookupA_append]
    have hn : lookupA a k0 = none :=
      lookupA_eq_none_of_not_contains a k0 (by simpa using hc)
    by_cases hk : k = k0
    · subst hk
      simp [hn, lookupA]
    · have hk2 : ¬k0 = k := fun hh => hk hh.symm
      cases hl : lookupA a k <;> simp [lookupA, hk, hk2, hl, hn]

theorem lookupA_foldl_pushEntry [DecidableEq K] :
    ∀ (l : List (K × V)) (acc : List (K × List V)) (k : K),
    nodupKeysA l = true →
    lookupA (l.foldl (fun a q => pushEntry a q.1 q.2) acc) k =
      match lookupA l k with
      | some v => some (((lookupA acc k).getD []) ++ [v])
      | none => lookupA acc k
  | [], acc, k, _ => by simp [lookupA]
  | (k0, v0) :: rest, acc, k, h => by
    rw [nodupKeysA_cons] at h
    simp only [Bool.and_eq_true, Bool.not_eq_true'] at h
    rw [List.foldl_cons, lookupA_foldl_pushEntry rest _ k h.2]
    by_cases hk : k = k0
    · subst hk
      have hr : lookupA rest k = none :=
        lookupA_eq_none_of_not_contains rest k h.1
      simp [lookupA_cons, hr, lookupA_pushEntry]
    · have hk2 : ¬k0 = k := fun hh => hk hh.symm
      cases hr : lookupA rest k <;>
        simp [lookupA_cons, hk, hk2, hr, lookupA_pushEntry]

theorem lookupA_stackAux [DecidableEq K] :
    ∀ (e : Envr K V) (acc : List (K × List V)) (k : K), e.wf = true →
    lookupA (stackAux acc e) k =
      match lookupA acc k with
      | some cur => some (cur ++ e.chainValues k)
      | none =>
        if (e.chainValues k).isEmpty then none else some (e.chainValues k)
  | .mk l none, acc, k, h => by
    rw [wf_mk_none] at h
    rw [stackAux, lookupA_foldl_pushEntry l acc k h]
    cases hl : lookupA l k <;> cases ha : lookupA acc k <;>
      simp [Envr.chainValues, hl, ha]
  | .mk l (some p), acc, k, h => by
    rw [wf_mk_some] at h
    simp only [Bool.and_eq_true] at h
    rw [stackAux, lookupA_stackAux p _ k h.2,
      lookupA_foldl_pushEntry l acc k h.1]
    simp only [Envr.chainValues]
    cases hl : lookupA l k <;> cases ha : lookupA acc k <;> simp [hl, ha]

/-! ### Claim theorems -/

/-- C1: `flatten` returns a parentless environment whose keys are exactly
the keys bound at any level of the chain, and for a key bound at more
than one level the resulting value is the outermost/oldest binding —
levels are visited innermost-first and later, outer-level inserts
overwrite earlier ones on key collision. -/
theorem C1_flatten_outermost_wins [DecidableEq K] (e : Envr K V) (k : K)
    (h : e.wf = true) :
    (e.flatten).get_parent = none ∧
    (e.flatten).contains k = e.contains k ∧
    (e.flatten).get k = e.getOutermost k := by
  have hflat : lookupA (flattenAux [] e) k = e.getOutermost k := by
    rw [lookupA_flattenAux e [] k h]
    cases hg : e.getOutermost k <;> simp [lookupA]
  refine ⟨rfl, ?_, ?_⟩
  · show containsKeyA (flattenAux [] e) k = e.contains k
    rw [containsKeyA, hflat, isSome_getOutermost_eq_contains]
  · show lookupA (flattenAux [] e) k = e.getOutermost k
    exact hflat

/-- Witness for C1: a two-level chain in which key 1 is shadowed;
flattening keeps the outermost binding. -/
theorem C1_flatten_outermost_wins_witness :
    ((Envr.mk [(1, 10)] (some (Envr.mk [(1, 20)] none)) : Envr Nat Nat).flatten).get_parent = none ∧
    ((Envr.mk [(1, 10)] (some (Envr.mk [(1, 20)] none)) : Envr Nat Nat).flatten).contains 1 =
      (Envr.mk [(1, 10)] (some (Envr.mk [(1, 20)] none)) : Envr Nat Nat).contains 1 ∧
    ((Envr.mk [(1, 10)] (some (Envr.mk [(1, 20)] none)) : Envr Nat Nat).flatten).get 1 =
      (Envr.mk [(1, 10)] (some (Envr.mk [(1, 20)] none)) : Envr Nat Nat).getOutermost 1 :=
  C1_flatten_outermost_wins _ 1 (by decide)

/-- C2: `define` rejects a key bound anywhere in the chain, returning the
pair unchanged next to the untouched environment; on an unbound key it
inserts into the local mapping and returns `none`. -/
theorem C2_define_once [DecidableEq K] (e : Envr K V) (k : K) (v : V)
    (k' : K) :
    if e.contains k
    then e.define k v = (e, some (k, v))
    else (e.define k v).2 = none ∧
         (e.define k v).1.get_parent = e.get_parent ∧
         (e.define k v).1.contains_local k = true ∧
         (e.define k v).1.get k' = (if k' = k then some v else e.get k') := by
  obtain ⟨l, p⟩ := e
  by_cases hc : (Envr.mk l p).contains k = true
  · simp [hc, Envr.define]
  · simp only [hc, if_false, Bool.false_eq_true]
    refine ⟨?_, ?_, ?_, ?_⟩
    · simp [Envr.define, hc]
    · simp [Envr.define, hc, Envr.get_parent]
    · simp [Envr.define, hc, Envr.contains_local, Envr.get_locals,
        containsKeyA, lookupA_insertA]
    · simp only [Envr.define, hc, if_false, Envr.get_locals, Envr.get_parent]
      cases p with
      | none =>
        by_cases hk : k' = k <;> simp [Envr.get, lookupA_insertA, hk]
      | some q =>
        by_cases hk : k' = k
        · simp [Envr.get, lookupA_insertA, hk]
        · cases hl : lookupA l k' <;>
            simp [Envr.get, lookupA_insertA, hk, hl]

/-- Witness for C2 in the rejecting case: key 1 is bound in the parent,
so `define` returns the pair and leaves the chain alone. -/
theorem C2_define_once_witness :
    if (Envr.mk [] (some (Envr.mk [(1, 20)] none)) : Envr Nat Nat).contains 1
    then (Envr.mk [] (some (Envr.mk [(1, 20)] none)) : Envr Nat Nat).define 1 7 =
      (Envr.mk [] (some (Envr.mk [(1, 20)] none)), some (1, 7))
    else ((Envr.mk [] (some (Envr.mk [(1, 20)] none)) : Envr Nat Nat).define 1 7).2 = none ∧
         ((Envr.mk [] (some (Envr.mk [(1, 20)] none)) : Envr Nat Nat).define 1 7).1.get_parent =
           (Envr.mk [] (some (Envr.mk [(1, 20)] none)) : Envr Nat Nat).get_parent ∧
         ((Envr.mk [] (some (Envr.mk [(1, 20)] none)) : Envr Nat Nat).define 1 7).1.contains_local 1 = true ∧
         ((Envr.mk [] (some (Envr.mk [(1, 20)] none)) : Envr Nat Nat).define 1 7).1.get 2 =
           (if 2 = 1 then some 7 else (Envr.mk [] (some (Envr.mk [(1, 20)] none)) : Envr Nat Nat).get 2) :=
  C2_define_once _ 1 7 2

/-- C3: when the key is bound anywhere in the chain, `update` overwrites
the innermost such binding in place — possibly in an ancestor level —
and returns (a reference to) the new value in the success variant; when
the key is bound nowhere, it returns the value in the failure variant
and leaves the chain untouched, inserting nothing. -/
theorem C3_update_innermost [DecidableEq K] (e : Envr K V) (k : K) (v : V)
    (k' : K) :
    (if e.contains k
     then (e.update k v).2 = Sum.inl (some v)
     else (e.update k v).1 = e ∧ (e.update k v).2 = Sum.inr v) ∧
    ((e.update k v).1.chainValues k =
      match e.chainValues k with
      | [] => []
      | _ :: t => v :: t) ∧
    ((e.update k v).1.get k' =
      if k' = k ∧ e.contains k then some v else e.get k') ∧
    ((e.update k v).1.levels.map keysA = e.levels.map keysA) := by
  by_cases hc : e.contains k = true
  · have hs : (e.get_mut_write k v).isSome = true := by
      rw [isSome_get_mut_write]; exact hc
    obtain ⟨e2, he2⟩ := Option.isSome_iff_exists.mp hs
    have hfst : (e.update k v).1 = e2 := by simp [Envr.update, he2]
    have hsnd : (e.update k v).2 = Sum.inl (e2.get k) := by
      simp [Envr.update, he2]
    refine ⟨?_, ?_, ?_, ?_⟩
    · rw [if_pos hc, hsnd, gmw_get_self e e2 k v he2]
    · rw [hfst, gmw_chainValues e e2 k v he2]
      cases hcv : e.chainValues k
      · exact absurd hcv (chainValues_ne_nil_of_contains e k hc)
      · simp
    · rw [hfst]
      by_cases hk : k' = k
      · subst hk
        rw [if_pos ⟨rfl, hc⟩]
        exact gmw_get_self e e2 k' v he2
      · rw [if_neg (fun hh => hk hh.1)]
        exact gmw_get_ne e e2 k v k' he2 hk
    · rw [hfst]
      exact gmw_levels_keys e e2 k v he2
  · have hf : e.contains k = false := by simpa using hc
    have hn : e.get_mut_write k v = none := by
      have hs := isSome_get_mut_write e k v
      rw [hf] at hs
      simpa using hs
    have hfst : (e.update k v).1 = e := by simp [Envr.update, hn]
    refine ⟨?_, ?_, ?_, ?_⟩
    · rw [if_neg (by simp [hf])]
      exact ⟨hfst, by simp [Envr.update, hn]⟩
    · rw [hfst, chainValues_eq_nil_of_not_contains e k hf]
    · rw [hfst, if_neg (fun hh => hc hh.2)]
    · rw [hfst]

/-- Witness for C3: key 1 lives only in the parent level; `update`
rewrites it there. -/
theorem C3_update_innermost_witness :
    (if (Envr.mk [(2, 5)] (some (Envr.mk [(1, 20)] none)) : Envr Nat Nat).contains 1
     then ((Envr.mk [(2, 5)] (some (Envr.mk [(1, 20)] none)) : Envr Nat Nat).update 1 99).2 =
       Sum.inl (some 99)
     else ((Envr.mk [(2, 5)] (some (Envr.mk [(1, 20)] none)) : Envr Nat Nat).update 1 99).1 =
         Envr.mk [(2, 5)] (some (Envr.mk [(1, 20)] none)) ∧
       ((Envr.mk [(2, 5)] (some (Envr.mk [(1, 20)] none)) : Envr Nat Nat).update 1 99).2 =
         Sum.inr 99) ∧
    (((Envr.mk [(2, 5)] (some (Envr.mk [(1, 20)] none)) : Envr Nat Nat).update 1 99).1.chainValues 1 =
      match (Envr.mk [(2, 5)] (some (Envr.mk [(1, 20)] none)) : Envr Nat Nat).chainValues 1 with
      | [] => []
      | _ :: t => 99 :: t) ∧
    (((Envr.mk [(2, 5)] (some (Envr.mk [(1, 20)] none)) : Envr Nat Nat).update 1 99).1.get 2 =
      if 2 = 1 ∧ (Envr.mk [(2, 5)] (some (Envr.mk [(1, 20)] none)) : Envr Nat Nat).contains 1
      then some 99
      else (Envr.mk [(2, 5)] (some (Envr.mk [(1, 20)] none)) : Envr Nat Nat).get 2) ∧
    (((Envr.mk [(2, 5)] (some (Envr.mk [(1, 20)] none)) : Envr Nat Nat).update 1 99).1.levels.map keysA =
      (Envr.mk [(2, 5)] (some (Envr.mk [(1, 20)] none)) : Envr Nat Nat).levels.map keysA) :=
  C3_update_innermost _ 1 99 2

/-- C4: `get` searches the local level first and then the ancestors in
chain order — it equals the first-level-wins lookup over `levels` — and
on a key bound at no level both `get` and `contains` report absence. -/
theorem C4_get_search_order [DecidableEq K] (e : Envr K V) (k : K) :
    e.get k = chainLookup e.levels k ∧
    e.contains k = e.levels.any (fun l => containsKeyA l k) ∧
    (e.get k).isSome = e.contains k :=
  ⟨get_eq_chainLookup e k, contains_eq_any e k, isSome_get_eq_contains e k⟩

/-- Witness for C4 on a two-level chain and an absent key. -/
theorem C4_get_search_order_witness :
    (Envr.mk [(1, 10)] (some (Envr.mk [(2, 20)] none)) : Envr Nat Nat).get 3 =
      chainLookup (Envr.mk [(1, 10)] (some (Envr.mk [(2, 20)] none)) : Envr Nat Nat).levels 3 ∧
    (Envr.mk [(1, 10)] (some (Envr.mk [(2, 20)] none)) : Envr Nat Nat).contains 3 =
      (Envr.mk [(1, 10)] (some (Envr.mk [(2, 20)] none)) : Envr Nat Nat).levels.any
        (fun l => containsKeyA l 3) ∧
    ((Envr.mk [(1, 10)] (some (Envr.mk [(2, 20)] none)) : Envr Nat Nat).get 3).isSome =
      (Envr.mk [(1, 10)] (some (Envr.mk [(2, 20)] none)) : Envr Nat Nat).contains 3 :=
  C4_get_search_order _ 3

/-- C5: `set` writes into the local mapping only — it returns the
previous local value, the key now resolves locally to the new value,
other local keys are untouched and the parent chain is left identical. -/
theorem C5_set_local_shadow [DecidableEq K] (e : Envr K V) (k : K) (v : V)
    (k' : K) :
    (e.set k v).2 = lookupA e.get_locals k ∧
    (e.set k v).1.get_parent = e.get_parent ∧
    (e.set k v).1.get k = some v ∧
    lookupA (e.set k v).1.get_locals k' =
      (if k' = k then some v else lookupA e.get_locals k') := by
  obtain ⟨l, p⟩ := e
  refine ⟨rfl, rfl, ?_, ?_⟩
  · cases p <;> simp [Envr.set, Envr.get, Envr.get_locals, Envr.get_parent,
      lookupA_insertA]
  · simp [Envr.set, Envr.get_locals, lookupA_insertA]

/-- Witness for C5: setting key 1 locally shadows the parent binding. -/
theorem C5_set_local_shadow_witness :
    ((Envr.mk [] (some (Envr.mk [(1, 20)] none)) : Envr Nat Nat).set 1 7).2 =
      lookupA (Envr.mk [] (some (Envr.mk [(1, 20)] none)) : Envr Nat Nat).get_locals 1 ∧
    ((Envr.mk [] (some (Envr.mk [(1, 20)] none)) : Envr Nat Nat).set 1 7).1.get_parent =
      (Envr.mk [] (some (Envr.mk [(1, 20)] none)) : Envr Nat Nat).get_parent ∧
    ((Envr.mk [] (some (Envr.mk [(1, 20)] none)) : Envr Nat Nat).set 1 7).1.get 1 = some 7 ∧
    lookupA ((Envr.mk [] (some (Envr.mk [(1, 20)] none)) : Envr Nat Nat).set 1 7).1.get_locals 1 =
      (if 1 = 1 then some 7
       else lookupA (Envr.mk [] (some (Envr.mk [(1, 20)] none)) : Envr Nat Nat).get_locals 1) :=
  C5_set_local_shadow _ 1 7 1

/-- C6: `difference` returns a parentless environment binding exactly
the keys bound somewhere in `self`'s chain and nowhere in `other`'s
chain, each to the value `self.get` yields; no key bound anywhere in
`other` appears in the result. -/
theorem C6_difference_unbound_in_other [DecidableEq K] (e o : Envr K V)
    (k : K) :
    (e.difference o).get_parent = none ∧
    (e.difference o).get k =
      (if e.contains k && !(o.contains k) then e.get k else none) ∧
    (e.difference o).contains k = (e.contains k && !(o.contains k)) := by
  have hL : lookupA (((e.keyset).filter (fun k0 => !(elemA o.keyset k0))).foldl
      (fun acc k0 =>
        match e.get k0 with
        | some v => insertA acc k0 v
        | none => acc) []) k =
      (if e.contains k && !(o.contains k) then e.get k else none) := by
    rw [lookupA_diff_foldl e.get]
    simp only [elemA_filter, elemA_keyset, isSome_get_eq_contains]
    cases hce : e.contains k <;> cases hco : o.contains k <;> simp [lookupA]
  refine ⟨rfl, ?_, ?_⟩
  · show lookupA _ k = _
    exact hL
  · show containsKeyA _ k = _
    rw [containsKeyA, hL]
    cases hce : e.contains k <;> cases hco : o.contains k <;>
      simp [isSome_get_eq_contains, hce]

/-- Witness for C6, mirroring the repo's difference test with numeric
keys: only key 3 of `self` is unbound in `other`. -/
theorem C6_difference_unbound_in_other_witness :
    ((Envr.mk [(1, 8), (2, 9), (3, 10)] none : Envr Nat Nat).difference
      (Envr.mk [(1, 9), (4, 11), (2, 4)] none)).get_parent = none ∧
    ((Envr.mk [(1, 8), (2, 9), (3, 10)] none : Envr Nat Nat).difference
      (Envr.mk [(1, 9), (4, 11), (2, 4)] none)).get 3 =
      (if (Envr.mk [(1, 8), (2, 9), (3, 10)] none : Envr Nat Nat).contains 3 &&
          !((Envr.mk [(1, 9), (4, 11), (2, 4)] none : Envr Nat Nat).contains 3)
       then (Envr.mk [(1, 8), (2, 9), (3, 10)] none : Envr Nat Nat).get 3
       else none) ∧
    ((Envr.mk [(1, 8), (2, 9), (3, 10)] none : Envr Nat Nat).difference
      (Envr.mk [(1, 9), (4, 11), (2, 4)] none)).contains 3 =
      ((Envr.mk [(1, 8), (2, 9), (3, 10)] none : Envr Nat Nat).contains 3 &&
        !((Envr.mk [(1, 9), (4, 11), (2, 4)] none : Envr Nat Nat).contains 3)) :=
  C6_difference_unbound_in_other _ _ 3

/-- C7: `stack` maps each visible key to the sequence of all values
bound to it across the levels, ordered from the innermost/newest level
to the outermost/oldest (its entry is exactly `chainValues`, absent iff
the key is bound at no level). -/
theorem C7_stack_innermost_first [DecidableEq K] (e : Envr K V) (k : K)
    (h : e.wf = true) :
    lookupA e.stack k =
      (if (e.chainValues k).isEmpty then none else some (e.chainValues k)) := by
  rw [Envr.stack, lookupA_stackAux e [] k h]
  simp [lookupA]

/-- Witness for C7: a three-level chain binding key 1 at every level;
the stacked sequence has the three values innermost-first. -/
theorem C7_stack_innermost_first_witness :
    (lookupA (Envr.mk [(1, 10)]
        (some (Envr.mk [(1, 20)] (some (Envr.mk [(1, 30)] none)))) :
        Envr Nat Nat).stack 1 =
      (if ((Envr.mk [(1, 10)]
          (some (Envr.mk [(1, 20)] (some (Envr.mk [(1, 30)] none)))) :
          Envr Nat Nat).chainValues 1).isEmpty
       then none
       else some ((Envr.mk [(1, 10)]
          (some (Envr.mk [(1, 20)] (some (Envr.mk [(1, 30)] none)))) :
          Envr Nat Nat).chainValues 1))) ∧
    (Envr.mk [(1, 10)]
        (some (Envr.mk [(1, 20)] (some (Envr.mk [(1, 30)] none)))) :
        Envr Nat Nat).chainValues 1 = [10, 20, 30] :=
  ⟨C7_stack_innermost_first _ 1 (by decide), by decide⟩

/-- C8: `size` is the sum of the local entry counts over every level of
the chain; a key shadowed at several levels is counted once per level. -/
theorem C8_size_per_level (e : Envr K V) :
    e.size = (e.levels.map List.length).sum :=
  size_eq_sum_levels e

/-- Witness for C8: a chain shadowing key 1 at both levels has size 2. -/
theorem C8_size_per_level_witness :
    (Envr.mk [(1, 10)] (some (Envr.mk [(1, 20)] none)) : Envr Nat Nat).size =
      ((Envr.mk [(1, 10)] (some (Envr.mk [(1, 20)] none)) : Envr Nat Nat).levels.map
        List.length).sum :=
  C8_size_per_level _

/-- C9: the chain-searching membership test agrees with the
chain-searching lookup on every key. -/
theorem C9_contains_agrees_with_get [DecidableEq K] (e : Envr K V) (k : K) :
    e.contains k = (e.get k).isSome :=
  (isSome_get_eq_contains e k).symm

/-- Witness for C9 on a present and computed instance. -/
theorem C9_contains_agrees_with_get_witness :
    (Envr.mk [(1, 10)] (some (Envr.mk [(2, 20)] none)) : Envr Nat Nat).contains 2 =
      ((Envr.mk [(1, 10)] (some (Envr.mk [(2, 20)] none)) : Envr Nat Nat).get 2).isSome :=
  C9_contains_agrees_with_get _ 2

/-- C10: `extend` yields an empty local mapping over the old environment
as parent, preserving every lookup and the size. -/
theorem C10_extend_preserves [DecidableEq K] (e : Envr K V) (k : K) :
    (e.extend).get_locals = [] ∧
    (e.extend).has_parent = true ∧
    (e.extend).get k = e.get k ∧
    (e.extend).size = e.size := by
  refine ⟨rfl, rfl, ?_, ?_⟩
  · simp [Envr.extend, Envr.get, lookupA]
  · simp [Envr.extend, Envr.size]

/-- Witness for C10 on a one-level environment. -/
theorem C10_extend_preserves_witness :
    ((Envr.mk [(1, 10)] none : Envr Nat Nat).extend).get_locals = [] ∧
    ((Envr.mk [(1, 10)] none : Envr Nat Nat).extend).has_parent = true ∧
    ((Envr.mk [(1, 10)] none : Envr Nat Nat).extend).get 1 =
      (Envr.mk [(1, 10)] none : Envr Nat Nat).get 1 ∧
    ((Envr.mk [(1, 10)] none : Envr Nat Nat).extend).size =
      (Envr.mk [(1, 10)] none : Envr Nat Nat).size :=
  C10_extend_preserves _ 1

end RecordEnvr
